import Mathlib

/-!
Shallow embedding of the wayback-discover-diff-go repository, covering the
SimHash fingerprint encoder (internal/simhash/simhash.go), the HTML feature
extractor's word-count pass (internal/job/extract.go), the Redis-backed query
layer (internal/utils/utils.go), and the capture download/retry and job
completion logic (internal/job/job.go).

Go machine integers are modelled as `Int`/`Nat` (the program's weights and
counters stay far below 2^63 in every theorem proved here, so overflow never
matters). External collaborators (the blake2b hash, gzip/deflate decompressors,
HTTP outcomes and the Redis store) are modelled as explicit function/value
parameters with the semantics documented by their libraries.
-/

namespace WaybackDiff

/-! ## Fingerprint encoder (internal/simhash/simhash.go)

`hashFunc` in the Go code is blake2b-512 of the term, read as a big integer.
It is an opaque cryptographic primitive, so the embedding takes it as an
explicit parameter `hashFn : String → Nat`; `generateSimhash` masks it to the
low `size` bits (`h.And(h, mask)` with `mask = 2^size - 1`), which the
embedding writes as `% 2 ^ size`. -/

/-- One iteration of the Go feature loop of `generateSimhash`: entries with
weight `v <= 0` are skipped (`continue`); otherwise every position `i < size`
of the accumulator vector gets `+v` when bit `i` of the masked hash is 1 and
`-v` otherwise. -/
def simhashStep (hashFn : String → Nat) (size : Nat) (vec : List Int)
    (kv : String × Int) : List Int :=
  if kv.2 ≤ 0 then vec
  else
    (List.range size).map (fun i =>
      vec.getD i 0 + (if (hashFn kv.1 % 2 ^ size).testBit i then kv.2 else -kv.2))

/-- The accumulator vector of `generateSimhash`: `vector := make([]int, size)`
followed by the loop over the feature map (the map's iteration sequence is
modelled as a list of key/value pairs). -/
def simhashVector (hashFn : String → Nat) (features : List (String × Int))
    (size : Nat) : List Int :=
  features.foldl (simhashStep hashFn size) (List.replicate size 0)

/-- Function `generateSimhash`: after the accumulation loop, bit `i` of the returned
value is set (`value.SetBit(value, i, 1)`) exactly when `vector[i] > 0`. -/
def generateSimhash (hashFn : String → Nat) (features : List (String × Int))
    (size : Nat) : Nat :=
  (List.range size).foldl (fun value i =>
    if 0 < (simhashVector hashFn features size).getD i 0 then value ||| 2 ^ i
    else value) 0

/-- The accumulator of the specification, stated as the sentence of the spec
reads: the sum, over the `(term, weight)` entries with `weight > 0`, of
`+weight` when bit `i` of the term's hash reduced to `size` bits is 1 and
`-weight` otherwise. Compared against `generateSimhash` in the theorems. -/
def bitAccumulator (hashFn : String → Nat) (features : List (String × Int))
    (size : Nat) (i : Nat) : Int :=
  ((features.filter (fun kv => 0 < kv.2)).map (fun kv =>
    if (hashFn kv.1 % 2 ^ size).testBit i then kv.2 else -kv.2)).sum

/-- Model of `big.Int.FillBytes(make([]byte, len))`: the value written as `len` bytes in
big-endian order. (Go panics when the value does not fit; every call site in
this development keeps `v < 2^(8*len)`, where the `% 256` below is the
identity on each byte.) -/
def fillBytes : Nat → Nat → List Nat
  | _, 0 => []
  | v, n + 1 => v / 2 ^ (8 * n) % 256 :: fillBytes (v % 2 ^ (8 * n)) n

/-- Function `packSimhashToBytes`: big-endian `FillBytes` into `size/8` bytes, then the
in-place byte reversal to little-endian. -/
def packSimhashToBytes (simhash : Nat) (size : Nat) : List Nat :=
  (fillBytes simhash (size / 8)).reverse

/-- The standard base64 alphabet used by Go's `base64.StdEncoding`. -/
def base64Chars : List Char :=
  "ABCDEFGHIJKLMNOPQRSTUVWXYZabcdefghijklmnopqrstuvwxyz0123456789+/".toList

/-- Character for a 6-bit group. -/
def b64Char (n : Nat) : Char := base64Chars.getD n 'A'

/-- Value (6-bit group) of an alphabet character. -/
def b64Val (c : Char) : Nat := base64Chars.findIdx (fun x => x == c)

/-- Go's `base64.StdEncoding.EncodeToString`: 3 input bytes become 4 output
characters, with `=` padding for a 1- or 2-byte tail. -/
def base64Encode : List Nat → List Char
  | [] => []
  | [b0] => [b64Char (b0 / 4), b64Char (b0 % 4 * 16), '=', '=']
  | [b0, b1] =>
      [b64Char (b0 / 4), b64Char (b0 % 4 * 16 + b1 / 16), b64Char (b1 % 16 * 4), '=']
  | b0 :: b1 :: b2 :: rest =>
      b64Char (b0 / 4) :: b64Char (b0 % 4 * 16 + b1 / 16) ::
      b64Char (b1 % 16 * 4 + b2 / 64) :: b64Char (b2 % 64) :: base64Encode rest

/-- Standard base64 decoding of a padded base64 text (the inverse direction
used to state the round-trip claim). -/
def base64Decode : List Char → List Nat
  | c0 :: c1 :: c2 :: c3 :: rest =>
      if c2 = '=' then [b64Val c0 * 4 + b64Val c1 / 16]
      else if c3 = '=' then
        [b64Val c0 * 4 + b64Val c1 / 16, b64Val c1 % 16 * 16 + b64Val c2 / 4]
      else
        (b64Val c0 * 4 + b64Val c1 / 16) :: (b64Val c1 % 16 * 16 + b64Val c2 / 4) ::
        (b64Val c2 % 4 * 64 + b64Val c3) :: base64Decode rest
  | _ => []

/-- Big-endian interpretation of a byte list (used to state that reversing the
packed bytes recovers the fingerprint value). -/
def bytesToNatBE (bytes : List Nat) : Nat :=
  bytes.foldl (fun acc b => acc * 256 + b) 0

/-- Function `encodeSimhashToBase64` composed as in `GetSimhash`: generate the
fingerprint, pack to little-endian bytes, base64-encode. -/
def GetSimhash (hashFn : String → Nat) (features : List (String × Int))
    (size : Nat) : String :=
  String.mk (base64Encode (packSimhashToBytes (generateSimhash hashFn features size) size))

/-! ## Feature extractor word counting (internal/job/extract.go)

Only the final counting pass of `extractHTMLFeatures` is needed by the claims:
`sort.Strings(words)` followed by the run-length loop that sets
`wordCounts[word] = count` once per run of adjacent equal words. -/

/-- Lexicographic comparison of character lists. Go's `sort.Strings` compares
strings byte-wise over UTF-8, and UTF-8 byte order agrees with Unicode
code-point order, so comparing `Char` sequences is faithful. -/
def lexLe : List Char → List Char → Bool
  | [], _ => true
  | _ :: _, [] => false
  | a :: as, b :: bs => if a = b then lexLe as bs else decide (a < b)

/-- String comparison used by `sort.Strings`. -/
def strLe (a b : String) : Bool := lexLe a.toList b.toList

/-- Model of `sort.Strings(words)`: sort into lexicographically ascending order. The
Go standard sort and an insertion sort produce the same list: any comparison
sort returns the unique `strLe`-sorted permutation (`strLe` is total,
transitive and antisymmetric, proved below). -/
def sortStrings (words : List String) : List String :=
  List.insertionSort (fun a b => strLe a b = true) words

/-- Scanner for the run-length counting loop of `extractHTMLFeatures`: `w` is
the word whose run is being counted and `count` the occurrences seen so far;
an equal next word extends the run, a different one emits the pair and starts
the next run. -/
def runLengthAux (w : String) (count : Nat) : List String → List (String × Nat)
  | [] => [(w, count)]
  | x :: rest =>
      if x = w then runLengthAux w (count + 1) rest
      else (w, count) :: runLengthAux x 1 rest

/-- The run-length counting loop of `extractHTMLFeatures`: starting at the
current word with `count := 1`, `count` grows while the following words are
equal, the pair is recorded, and the scan resumes after the run. On the
sorted input each word forms a single run, so each key is written exactly
once and an association list models the Go map faithfully. -/
def runLengthCounts : List String → List (String × Nat)
  | [] => []
  | w :: rest => runLengthAux w 1 rest

/-- The word-count map built by `extractHTMLFeatures`. -/
def extractWordCounts (words : List String) : List (String × Nat) :=
  runLengthCounts (sortStrings words)

/-- The direct frequency-counting pass (the commented-out alternative in the
source and the spec's preferred formulation): a map, modelled as a function
with Go's zero default, where each word increments its own count. -/
def directCountFun (words : List String) : String → Nat :=
  words.foldl (fun m w => fun x => if x = w then m x + 1 else m x) (fun _ => 0)

/-! ## Result store and query layer (internal/utils/utils.go) -/

/-- Go's `strings.Split(s, ".")` on the character list: every dot separates,
and empty parts are kept. -/
def splitOnDot : List Char → List (List Char)
  | [] => [[]]
  | c :: rest =>
      if c = '.' then [] :: splitOnDot rest
      else
        match splitOnDot rest with
        | [] => [[c]]
        | g :: gs => (c :: g) :: gs

/-- Function `Surt`: split the URL on `.`, sort the parts, join with `,`. -/
def Surt (url : String) : String :=
  String.intercalate "," (sortStrings ((splitOnDot url.toList).map String.mk))

/-- Digits-to-number helper for timestamp validation. -/
def natOfDigits (cs : List Char) : Nat :=
  cs.foldl (fun a c => a * 10 + (c.toNat - 48)) 0

/-- Day count of a month, with Gregorian leap years. -/
def daysInMonth (year month : Nat) : Nat :=
  if month = 2 then
    if (year % 4 = 0 ∧ year % 100 ≠ 0) ∨ year % 400 = 0 then 29 else 28
  else if month = 4 ∨ month = 6 ∨ month = 9 ∨ month = 11 then 30 else 31

/-- Function `validateTimestamp`: `time.Parse("20060102150405", ts)` succeeds, i.e. the
string is exactly 14 digits naming a real calendar date and clock time. -/
def validateTimestamp (ts : String) : Bool :=
  let cs := ts.toList
  decide (cs.length = 14) && cs.all Char.isDigit &&
    (let mo := natOfDigits ((cs.drop 4).take 2)
     let d := natOfDigits ((cs.drop 6).take 2)
     let h := natOfDigits ((cs.drop 8).take 2)
     let mi := natOfDigits ((cs.drop 10).take 2)
     let s := natOfDigits ((cs.drop 12).take 2)
     decide (1 ≤ mo) && decide (mo ≤ 12) && decide (1 ≤ d) &&
     decide (d ≤ daysInMonth (natOfDigits (cs.take 4)) mo) &&
     decide (h ≤ 23) && decide (mi ≤ 59) && decide (s ≤ 59))

/-- A Redis database: keys mapping to field/value hashes, both as association
lists. -/
def RedisStore := List (String × List (String × String))

/-- go-redis `HGet(...).Result()`: the stored value when the key and field
exist, and the sentinel error `redis.Nil` (a non-nil Go error) when the key or
the field is absent. -/
def hget (store : RedisStore) (key field : String) : Except String String :=
  match (List.lookup key store).bind (fun fields => List.lookup field fields) with
  | none => Except.error "redis: nil"
  | some v => Except.ok v

/-- Function `TimestampSimHash`: validate, look up the exact timestamp field, and on an
empty (but successfully returned) value fall back to the 4-digit year-prefix
field. Any `HGet` error — including `redis.Nil` for a missing field — takes
the first branch and is wrapped into the generic loading error. -/
def TimestampSimHash (store : RedisStore) (url timestamp : String) :
    Except String (List (String × String)) :=
  if url = "" ∨ timestamp = "" ∨ ¬validateTimestamp timestamp then
    Except.error "invalid URL or timestamp"
  else
    match hget store (Surt url) timestamp with
    | Except.error e =>
        Except.error ("error loading simhash data for url " ++ url ++
          " timestamp " ++ timestamp ++ " (" ++ e ++ ")")
    | Except.ok result =>
        if result.length ≠ 0 then Except.ok [("simhash", result)]
        else
          match hget store (Surt url) (String.mk (timestamp.toList.take 4)) with
          | Except.error e =>
              Except.error ("error loading simhash data for url " ++ url ++
                " timestamp " ++ timestamp ++ " (" ++ e ++ ")")
          | Except.ok r2 =>
              if r2.length ≠ 0 then
                Except.ok [("status", "error"), ("message", "NO_CAPTURES")]
              else
                Except.ok [("status", "error"), ("message", "CAPTURE_NOT_FOUND")]

/-- The timestamp-key scan of `YearSimhash`: walking the sorted field keys, an
exact match with the year aborts with `NO_CAPTURES`, otherwise keys starting
with the year are collected in order. `none` models the early return. -/
def collectYearTimestamps (year : String) : List String → Option (List String)
  | [] => some []
  | ts :: rest =>
      if ts = year then none
      else
        match collectYearTimestamps year rest with
        | none => none
        | some l => some (if year.isPrefixOf ts then ts :: l else l)

/-- Function `YearSimhash` from the `HKeys` result onward: empty key set, an exact-year
field, or no prefix match each yield `NO_CAPTURES`; otherwise the matching
timestamps (in sorted order) are fetched. -/
def yearSimhashScan (timestamps : List String) (year : String) :
    Except String (List String) :=
  if timestamps.length = 0 then Except.error "NO_CAPTURES"
  else
    match collectYearTimestamps year (sortStrings timestamps) with
    | none => Except.error "NO_CAPTURES"
    | some toFetch =>
        if toFetch.length = 0 then Except.error "NO_CAPTURES"
        else Except.ok toFetch

/-- Model of `int(math.Ceil(float64(a) / float64(b)))` from `handleResults`, as exact
integer arithmetic: for `b > 0` the ceiling of the quotient (`Int./` is
euclidean division, which rounds down for a positive divisor), and for `b < 0`
euclidean division itself rounds up. For `b = 0` the Go float division gives
an infinity whose integer conversion is implementation-defined; on the amd64
deployment target it converts to a negative value, and the model's `0` lands
in the same "no slicing" branch. The model is exact for list lengths below
2^53, which covers every realizable slice. -/
def goIntCeilDiv (a b : Int) : Int :=
  if 0 < b then -(-a / b) else a / b

/-- The pagination step of `handleResults`: with the `-1` sentinel the list is
untouched; otherwise, when at least one page exists, the page number is
clamped to the last page and the slice `[start:end]` is taken. Go slicing
panics on a negative `start`; the `Int.toNat` clamp below agrees with Go on
the in-range parameters the theorems quantify over. -/
def handleResultsSlice (timestamps : List String) (snapshotsPerPage page : Int) :
    List String :=
  if page = -1 then timestamps
  else if 0 < goIntCeilDiv timestamps.length snapshotsPerPage then
    (timestamps.take
        (min (min page (goIntCeilDiv timestamps.length snapshotsPerPage) * snapshotsPerPage)
          (timestamps.length : Int)).toNat).drop
      ((min page (goIntCeilDiv timestamps.length snapshotsPerPage) - 1) * snapshotsPerPage).toNat
  else timestamps

/-! ## Capture download and job completion (internal/job/job.go) -/

/-- Constant `MAX_RETRIES` from job.go. -/
def MAX_RETRIES : Nat := 2

/-- Constant `MAP_CAPTURE_DOWNLOAD` from job.go. -/
def MAP_CAPTURE_DOWNLOAD : Nat := 1000000

/-- The retry loop of `DownloadCapture` (`for i := 0; i < MAX_RETRIES; i++`),
written structurally on the remaining iteration count `maxRetries - i`.
`outcome i` is the result of attempt `i`: `some r` when an HTTP response `r`
arrives (the loop `break`s), `none` on a transport-level failure (`continue`).
Returns the number of attempts made and the final response. -/
def downloadAttemptLoop (outcome : Nat → Option α) (i : Nat) :
    Nat → Nat × Option α
  | 0 => (i, none)
  | remaining + 1 =>
      match outcome i with
      | some r => (i + 1, some r)
      | none => downloadAttemptLoop outcome (i + 1) remaining

/-- The whole retry phase of `DownloadCapture`. -/
def downloadAttempts (outcome : Nat → Option α) : Nat × Option α :=
  downloadAttemptLoop outcome 0 MAX_RETRIES

/-- Go's `strings.Contains`. -/
def strContains (s sub : String) : Bool :=
  (List.range (s.toList.length + 1)).any (fun i =>
    decide ((s.toList.drop i).take sub.toList.length = sub.toList))

/-- Go's `strings.ToLower` on the character list (content-type headers are
ASCII, where per-character lowering matches Go). -/
def toLowerStr (s : String) : String := String.mk (s.toList.map Char.toLower)

/-- The body-reading phase of `DownloadCapture`. The limited reader
`io.LimitReader(resp.Body, MAP_CAPTURE_DOWNLOAD)` is installed first, but the
gzip and deflate branches replace it with a decompressor built directly over
`resp.Body`, so only the plain branch reads through the limit. `gunzip` and
`inflate` model the external decompressors (`none` = a read/decode error,
which makes the function return the empty result), and the decoded data is
returned only when the lowercased content type mentions text or html. -/
def downloadCaptureBody (gunzip inflate : List Nat → Option (List Nat))
    (contentEncoding contentType : String) (body : List Nat) : List Nat :=
  let dataOpt : Option (List Nat) :=
    if strContains contentEncoding "gzip" then gunzip body
    else if strContains contentEncoding "deflate" then inflate body
    else some (body.take MAP_CAPTURE_DOWNLOAD)
  match dataOpt with
  | none => []
  | some data =>
      if strContains (toLowerStr contentType) "text" ||
          strContains (toLowerStr contentType) "html" then
        data
      else []

/-- The observable job fields touched by the completion path of `RunJob`. -/
structure JobRecord where
  state : String
  info : String
  durationSet : Bool
deriving DecidableEq

/-- The completion path of `RunJob`, entered after `wg.Wait()` (capture
listing succeeded and all per-capture work finished): the state becomes
COMPLETE and the info line is rewritten; then, only for a non-empty result
map, the `HSet` and `Expire` writes run, and an error in either logs, rewrites
the info and returns early — skipping the final `j.Duration = duration`
assignment, which `durationSet` records. -/
def finishJob (totalCaptures : Nat) (finalResult : List (String × String))
    (hsetErr expireErr : Option String) (j : JobRecord) : JobRecord :=
  let j1 : JobRecord :=
    JobRecord.mk "COMPLETE" ("Processed " ++ toString totalCaptures ++ " captures.")
      j.durationSet
  if finalResult.length ≠ 0 then
    match hsetErr with
    | some e =>
        JobRecord.mk j1.state ("cannot write simhashes to Redis, " ++ e) j1.durationSet
    | none =>
        match expireErr with
        | some e =>
            JobRecord.mk j1.state ("cannot write simhashes to Redis, " ++ e) j1.durationSet
        | none => JobRecord.mk j1.state j1.info true
  else JobRecord.mk j1.state j1.info true

/-! ## Order lemmas for the string comparison -/

theorem lexLe_total : ∀ (as bs : List Char), lexLe as bs = true ∨ lexLe bs as = true
  | [], _ => Or.inl rfl
  | _ :: _, [] => Or.inr rfl
  | a :: as, b :: bs => by
      by_cases hab : a = b
      · subst hab
        rcases lexLe_total as bs with h | h
        · exact Or.inl (by simpa [lexLe] using h)
        · exact Or.inr (by simpa [lexLe] using h)
      · rcases lt_or_gt_of_ne hab with h | h
        · exact Or.inl (by simp [lexLe, hab, h])
        · exact Or.inr (by simp [lexLe, Ne.symm hab, h])

theorem lexLe_trans : ∀ (as bs cs : List Char),
    lexLe as bs = true → lexLe bs cs = true → lexLe as cs = true
  | [], _, _, _, _ => rfl
  | _ :: _, [], _, h, _ => by simp [lexLe] at h
  | _ :: _, _ :: _, [], _, h => by simp [lexLe] at h
  | a :: as, b :: bs, c :: cs, h1, h2 => by
      by_cases hab : a = b <;> by_cases hbc : b = c
      · subst hab; subst hbc
        simp only [lexLe, if_pos rfl] at h1 h2 ⊢
        exact lexLe_trans as bs cs h1 h2
      · subst hab
        simpa [lexLe, hbc] using h2
      · subst hbc
        simpa [lexLe, hab] using h1
      · simp only [lexLe, if_neg hab, decide_eq_true_eq] at h1
        simp only [lexLe, if_neg hbc, decide_eq_true_eq] at h2
        have hac : a < c := lt_trans h1 h2
        simp [lexLe, ne_of_lt hac, hac]

theorem lexLe_antisymm : ∀ (as bs : List Char),
    lexLe as bs = true → lexLe bs as = true → as = bs
  | [], [], _, _ => rfl
  | [], _ :: _, _, h => by simp [lexLe] at h
  | _ :: _, [], h, _ => by simp [lexLe] at h
  | a :: as, b :: bs, h1, h2 => by
      by_cases hab : a = b
      · subst hab
        simp only [lexLe, if_pos rfl] at h1 h2
        exact congrArg (a :: ·) (lexLe_antisymm as bs h1 h2)
      · simp only [lexLe, if_neg hab, decide_eq_true_eq] at h1
        simp only [lexLe, if_neg (Ne.symm hab), decide_eq_true_eq] at h2
        exact absurd h1 (lt_asymm h2)

theorem strLe_total (a b : String) : strLe a b = true ∨ strLe b a = true :=
  lexLe_total a.toList b.toList

theorem strLe_trans {a b c : String} (h1 : strLe a b = true) (h2 : strLe b c = true) :
    strLe a c = true :=
  lexLe_trans a.toList b.toList c.toList h1 h2

theorem strLe_antisymm {a b : String} (h1 : strLe a b = true) (h2 : strLe b a = true) :
    a = b := by
  cases a; cases b
  exact congrArg String.mk (lexLe_antisymm _ _ h1 h2)

instance strLeIsTotal : IsTotal String (fun a b => strLe a b = true) := ⟨strLe_total⟩

instance strLeIsTrans : IsTrans String (fun a b => strLe a b = true) :=
  ⟨fun _ _ _ => strLe_trans⟩

/-! ## Lemmas for the fingerprint encoder -/

theorem getD_replicate_zero : ∀ (n i : Nat), (List.replicate n (0 : Int)).getD i 0 = 0
  | 0, _ => by simp
  | n + 1, 0 => rfl
  | n + 1, i + 1 => getD_replicate_zero n i

theorem simhashStep_length (hashFn : String → Nat) (size : Nat) (vec : List Int)
    (kv : String × Int) (hl : vec.length = size) :
    (simhashStep hashFn size vec kv).length = size := by
  unfold simhashStep
  split
  · exact hl
  · simp

theorem simhashStep_getD (hashFn : String → Nat) (size : Nat) (vec : List Int)
    (kv : String × Int) (i : Nat) (hi : i < size) :
    (simhashStep hashFn size vec kv).getD i 0 =
      vec.getD i 0 +
        (if kv.2 ≤ 0 then 0
         else if (hashFn kv.1 % 2 ^ size).testBit i then kv.2 else -kv.2) := by
  unfold simhashStep
  split
  · simp
  · have hlen : i < ((List.range size).map (fun j =>
        vec.getD j 0 + (if (hashFn kv.1 % 2 ^ size).testBit j then kv.2 else -kv.2))).length := by
      simpa using hi
    rw [List.getD_eq_getElem _ _ hlen, List.getElem_map]
    simp

theorem bitAccumulator_cons (hashFn : String → Nat) (size i : Nat)
    (kv : String × Int) (rest : List (String × Int)) :
    bitAccumulator hashFn (kv :: rest) size i =
      (if 0 < kv.2 then (if (hashFn kv.1 % 2 ^ size).testBit i then kv.2 else -kv.2) else 0) +
        bitAccumulator hashFn rest size i := by
  unfold bitAccumulator
  by_cases hv : (0 : Int) < kv.2 <;> simp [List.filter_cons, hv]

theorem foldl_simhashStep_getD (hashFn : String → Nat) (size : Nat) (i : Nat)
    (hi : i < size) :
    ∀ (features : List (String × Int)) (vec : List Int), vec.length = size →
      (features.foldl (simhashStep hashFn size) vec).getD i 0 =
        vec.getD i 0 + bitAccumulator hashFn features size i
  | [], vec, _ => by simp [bitAccumulator]
  | kv :: rest, vec, hl => by
      rw [List.foldl_cons,
        foldl_simhashStep_getD hashFn size i hi rest _ (simhashStep_length hashFn size vec kv hl),
        simhashStep_getD hashFn size vec kv i hi, bitAccumulator_cons]
      by_cases hv : kv.2 ≤ 0
      · rw [if_pos hv, if_neg (not_lt.mpr hv)]
        ring
      · rw [if_neg hv, if_pos (not_le.mp hv)]
        ring

theorem simhashVector_getD (hashFn : String → Nat) (features : List (String × Int))
    (size : Nat) (i : Nat) (hi : i < size) :
    (simhashVector hashFn features size).getD i 0 = bitAccumulator hashFn features size i := by
  unfold simhashVector
  rw [foldl_simhashStep_getD hashFn size i hi features _ (by simp)]
  simp [getD_replicate_zero]

theorem testBit_foldl_or (p : Nat → Prop) [DecidablePred p] :
    ∀ (l : List Nat) (init : Nat) (j : Nat),
      ((l.foldl (fun value i => if p i then value ||| 2 ^ i else value) init).testBit j = true ↔
        (init.testBit j = true ∨ (j ∈ l ∧ p j)))
  | [], init, j => by simp
  | a :: t, init, j => by
      rw [List.foldl_cons, testBit_foldl_or p t _ j]
      by_cases hpa : p a <;> by_cases hja : j = a
      · subst hja
        simp [hpa, Nat.testBit_or, Nat.testBit_two_pow]
      · simp only [if_pos hpa, Nat.testBit_or, Nat.testBit_two_pow, List.mem_cons]
        constructor
        · rintro (h | h)
          · rcases Bool.or_eq_true_iff.mp h with h | h
            · exact Or.inl h
            · exact absurd (of_decide_eq_true h).symm hja
          · exact Or.inr ⟨Or.inr h.1, h.2⟩
        · rintro (h | ⟨hj, hp⟩)
          · exact Or.inl (Bool.or_eq_true_iff.mpr (Or.inl h))
          · rcases hj with hj | hj
            · exact absurd hj hja
            · exact Or.inr ⟨hj, hp⟩
      · subst hja
        simp [hpa]
      · simp only [if_neg hpa, List.mem_cons]
        constructor
        · rintro (h | h)
          · exact Or.inl h
          · exact Or.inr ⟨Or.inr h.1, h.2⟩
        · rintro (h | ⟨hj, hp⟩)
          · exact Or.inl h
          · rcases hj with hj | hj
            · exact absurd hp (hj ▸ hpa)
            · exact Or.inr ⟨hj, hp⟩

theorem generateSimhash_testBit (hashFn : String → Nat) (features : List (String × Int))
    (size : Nat) (i : Nat) (hi : i < size) :
    ((generateSimhash hashFn features size).testBit i = true ↔
      0 < bitAccumulator hashFn features size i) := by
  unfold generateSimhash
  rw [testBit_foldl_or (fun j => 0 < (simhashVector hashFn features size).getD j 0)
    (List.range size) 0 i]
  simp only [Nat.zero_testBit, List.mem_range]
  rw [simhashVector_getD hashFn features size i hi]
  simp [hi]

/-- C1: for every feature set and bit width that is a multiple of 8, bit `i`
of the fingerprint value produced inside `GetSimhash` is 1 exactly when the
accumulator at position `i` — the sum over the entries with positive weight of
`+weight` when bit `i` of the term's hash reduced to `size` bits is 1 and
`-weight` otherwise — is strictly positive; a zero accumulator yields bit 0,
and entries with non-positive weight contribute nothing (they are skipped by
the filter defining `bitAccumulator`, matching the `continue` in the code). -/
theorem simhash_bit_iff_positive_accumulator (hashFn : String → Nat)
    (features : List (String × Int)) (size i : Nat) (_h8 : size % 8 = 0)
    (hi : i < size) :
    ((generateSimhash hashFn features size).testBit i = true ↔
      0 < bitAccumulator hashFn features size i) :=
  generateSimhash_testBit hashFn features size i hi

/-- Witness for C1 at a concrete hash function, feature list, width 8 and bit
0. -/
theorem simhash_bit_iff_positive_accumulator_witness :
    8 % 8 = 0 ∧ 0 < 8 ∧
      ((generateSimhash (fun s => s.length) [("a", 2), ("bb", -3)] 8).testBit 0 = true ↔
        0 < bitAccumulator (fun s => s.length) [("a", 2), ("bb", -3)] 8 0) :=
  ⟨by decide, by decide,
    simhash_bit_iff_positive_accumulator (fun s => s.length) [("a", 2), ("bb", -3)] 8 0
      (by decide) (by decide)⟩

theorem bitAccumulator_perm (hashFn : String → Nat) {f₁ f₂ : List (String × Int)}
    (size i : Nat) (hp : f₁.Perm f₂) :
    bitAccumulator hashFn f₁ size i = bitAccumulator hashFn f₂ size i :=
  List.Perm.sum_eq (List.Perm.map _ (List.Perm.filter _ hp))

theorem foldl_setBit_congr (p q : Nat → Prop) [DecidablePred p] [DecidablePred q] :
    ∀ (l : List Nat) (init : Nat), (∀ i ∈ l, p i ↔ q i) →
      l.foldl (fun v i => if p i then v ||| 2 ^ i else v) init =
        l.foldl (fun v i => if q i then v ||| 2 ^ i else v) init
  | [], _, _ => rfl
  | a :: t, init, h => by
      rw [List.foldl_cons, List.foldl_cons]
      have ha := h a (List.mem_cons_self a t)
      by_cases hpa : p a
      · rw [if_pos hpa, if_pos (ha.mp hpa)]
        exact foldl_setBit_congr p q t _ (fun i hi => h i (List.mem_cons_of_mem a hi))
      · rw [if_neg hpa, if_neg (fun hq => hpa (ha.mpr hq))]
        exact foldl_setBit_congr p q t _ (fun i hi => h i (List.mem_cons_of_mem a hi))

theorem generateSimhash_perm (hashFn : String → Nat) {f₁ f₂ : List (String × Int)}
    (size : Nat) (hp : f₁.Perm f₂) :
    generateSimhash hashFn f₁ size = generateSimhash hashFn f₂ size := by
  unfold generateSimhash
  apply foldl_setBit_congr
  intro i hi
  rw [List.mem_range] at hi
  rw [simhashVector_getD _ _ _ _ hi, simhashVector_getD _ _ _ _ hi,
    bitAccumulator_perm hashFn size i hp]

/-- C2: `GetSimhash` is deterministic — it is a pure function of the feature
map's contents, so any two iteration orders of the feature map (any two
permutations of the key/value sequence) produce the same output string. -/
theorem GetSimhash_deterministic (hashFn : String → Nat)
    (f₁ f₂ : List (String × Int)) (size : Nat) (hp : f₁.Perm f₂) :
    GetSimhash hashFn f₁ size = GetSimhash hashFn f₂ size := by
  unfold GetSimhash
  rw [generateSimhash_perm hashFn size hp]

/-- Witness for C2 on a two-entry feature map presented in both orders. -/
theorem GetSimhash_deterministic_witness :
    GetSimhash (fun s => s.length) [("a", 1), ("b", 2)] 8 =
      GetSimhash (fun s => s.length) [("b", 2), ("a", 1)] 8 :=
  GetSimhash_deterministic (fun s => s.length) [("a", 1), ("b", 2)]
    [("b", 2), ("a", 1)] 8 (by decide)

theorem b64Val_b64Char : ∀ n < 64, b64Val (b64Char n) = n := by decide

theorem b64Char_ne_pad : ∀ n < 64, b64Char n ≠ '=' := by decide

theorem base64_roundtrip : ∀ (bs : List Nat), (∀ b ∈ bs, b < 256) →
    base64Decode (base64Encode bs) = bs := by
  intro bs
  induction bs using base64Encode.induct with
  | case1 =>
      intro _
      rfl
  | case2 b0 =>
      intro h
      have hb0 : b0 < 256 := h b0 (by simp)
      show base64Decode [b64Char (b0 / 4), b64Char (b0 % 4 * 16), '=', '='] = [b0]
      unfold base64Decode
      rw [if_pos rfl, b64Val_b64Char _ (by omega), b64Val_b64Char _ (by omega)]
      have : b0 / 4 * 4 + b0 % 4 * 16 / 16 = b0 := by omega
      rw [this]
  | case3 b0 b1 =>
      intro h
      have hb0 : b0 < 256 := h b0 (by simp)
      have hb1 : b1 < 256 := h b1 (by simp)
      show base64Decode [b64Char (b0 / 4), b64Char (b0 % 4 * 16 + b1 / 16),
          b64Char (b1 % 16 * 4), '='] = [b0, b1]
      unfold base64Decode
      rw [if_neg (b64Char_ne_pad _ (by omega)), if_pos rfl,
        b64Val_b64Char _ (by omega), b64Val_b64Char _ (by omega),
        b64Val_b64Char _ (by omega)]
      have e0 : b0 / 4 * 4 + (b0 % 4 * 16 + b1 / 16) / 16 = b0 := by omega
      have e1 : (b0 % 4 * 16 + b1 / 16) % 16 * 16 + b1 % 16 * 4 / 4 = b1 := by omega
      rw [e0, e1]
  | case4 b0 b1 b2 rest ih =>
      intro h
      have hb0 : b0 < 256 := h b0 (by simp)
      have hb1 : b1 < 256 := h b1 (by simp)
      have hb2 : b2 < 256 := h b2 (by simp)
      show base64Decode (b64Char (b0 / 4) :: b64Char (b0 % 4 * 16 + b1 / 16) ::
          b64Char (b1 % 16 * 4 + b2 / 64) :: b64Char (b2 % 64) :: base64Encode rest) =
        b0 :: b1 :: b2 :: rest
      unfold base64Decode
      rw [if_neg (b64Char_ne_pad _ (by omega)), if_neg (b64Char_ne_pad _ (by omega)),
        b64Val_b64Char _ (by omega), b64Val_b64Char _ (by omega),
        b64Val_b64Char _ (by omega), b64Val_b64Char _ (by omega),
        ih (fun b hb => h b (by simp [hb]))]
      have e0 : b0 / 4 * 4 + (b0 % 4 * 16 + b1 / 16) / 16 = b0 := by omega
      have e1 : (b0 % 4 * 16 + b1 / 16) % 16 * 16 + (b1 % 16 * 4 + b2 / 64) / 4 = b1 := by
        omega
      have e2 : (b1 % 16 * 4 + b2 / 64) % 4 * 64 + b2 % 64 = b2 := by omega
      rw [e0, e1, e2]

theorem fillBytes_length : ∀ (v n : Nat), (fillBytes v n).length = n
  | _, 0 => rfl
  | v, n + 1 => by
      unfold fillBytes
      simp [fillBytes_length _ n]

theorem fillBytes_lt : ∀ (v n : Nat), ∀ b ∈ fillBytes v n, b < 256
  | _, 0 => by simp [fillBytes]
  | v, n + 1 => by
      unfold fillBytes
      intro b hb
      rcases List.mem_cons.mp hb with hb | hb
      · subst hb
        exact Nat.mod_lt _ (by omega)
      · exact fillBytes_lt _ n b hb

theorem bytesToNatBE_shift : ∀ (bs : List Nat) (a : Nat),
    bs.foldl (fun acc b => acc * 256 + b) a =
      a * 256 ^ bs.length + bs.foldl (fun acc b => acc * 256 + b) 0
  | [], a => by simp
  | b :: t, a => by
      rw [List.foldl_cons, List.foldl_cons, bytesToNatBE_shift t (a * 256 + b),
        bytesToNatBE_shift t (0 * 256 + b)]
      simp [List.length_cons, pow_succ]
      ring

theorem bytesToNatBE_fillBytes : ∀ (n v : Nat), v < 2 ^ (8 * n) →
    bytesToNatBE (fillBytes v n) = v
  | 0, v, hv => by
      simp only [pow_zero, Nat.mul_zero] at hv
      interval_cases v
      rfl
  | n + 1, v, hv => by
      have hP : (0 : Nat) < 2 ^ (8 * n) := Nat.pos_pow_of_pos _ (by omega)
      have h2 : (2 : ℕ) ^ (8 * (n + 1)) = 2 ^ (8 * n) * 256 := by
        rw [Nat.mul_succ, pow_add]
        norm_num
      have hdiv : v / 2 ^ (8 * n) < 256 := by
        rw [Nat.div_lt_iff_lt_mul hP]
        omega
      have hmod : v % 2 ^ (8 * n) < 2 ^ (8 * n) := Nat.mod_lt _ hP
      have ih := bytesToNatBE_fillBytes n (v % 2 ^ (8 * n)) hmod
      show bytesToNatBE (v / 2 ^ (8 * n) % 256 :: fillBytes (v % 2 ^ (8 * n)) n) = v
      unfold bytesToNatBE
      rw [List.foldl_cons, bytesToNatBE_shift, fillBytes_length]
      unfold bytesToNatBE at ih
      rw [ih, Nat.mod_eq_of_lt hdiv, Nat.zero_mul, Nat.zero_add]
      have hpow : (256 : ℕ) ^ n = 2 ^ (8 * n) := by
        rw [pow_mul]
        norm_num
      rw [hpow, Nat.mul_comm (v / 2 ^ (8 * n)) (2 ^ (8 * n))]
      exact Nat.div_add_mod v (2 ^ (8 * n))

theorem generateSimhash_lt (hashFn : String → Nat) (features : List (String × Int))
    (size : Nat) : generateSimhash hashFn features size < 2 ^ size := by
  unfold generateSimhash
  have hgen : ∀ (l : List Nat) (init : Nat), (∀ i ∈ l, i < size) → init < 2 ^ size →
      (l.foldl (fun value i =>
        if 0 < (simhashVector hashFn features size).getD i 0 then value ||| 2 ^ i
        else value) init) < 2 ^ size := by
    intro l
    induction l with
    | nil => intro init _ h; exact h
    | cons a t iht =>
        intro init hmem hinit
        rw [List.foldl_cons]
        apply iht _ (fun i hi => hmem i (List.mem_cons_of_mem a hi))
        split
        · exact Nat.or_lt_two_pow hinit
            (Nat.pow_lt_pow_right (by omega) (hmem a (List.mem_cons_self a t)))
        · exact hinit
  exact hgen (List.range size) 0 (fun i hi => List.mem_range.mp hi)
    (Nat.pos_pow_of_pos _ (by omega))

/-- C3: for every feature set and width `size` that is a multiple of 8,
base64-decoding the string returned by `GetSimhash` yields exactly `size / 8`
bytes, and reading those bytes reversed (back to big-endian) recovers exactly
the `size`-bit fingerprint value produced by the accumulator step. -/
theorem GetSimhash_roundtrip (hashFn : String → Nat) (features : List (String × Int))
    (size : Nat) (h8 : size % 8 = 0) :
    (base64Decode (GetSimhash hashFn features size).toList).length = size / 8 ∧
      bytesToNatBE ((base64Decode (GetSimhash hashFn features size).toList).reverse) =
        generateSimhash hashFn features size := by
  have hchars : (GetSimhash hashFn features size).toList =
      base64Encode (packSimhashToBytes (generateSimhash hashFn features size) size) := rfl
  have hbytes : ∀ b ∈ packSimhashToBytes (generateSimhash hashFn features size) size,
      b < 256 := by
    intro b hb
    unfold packSimhashToBytes at hb
    exact fillBytes_lt _ _ b (List.mem_reverse.mp hb)
  have hdec : base64Decode (GetSimhash hashFn features size).toList =
      packSimhashToBytes (generateSimhash hashFn features size) size := by
    rw [hchars, base64_roundtrip _ hbytes]
  constructor
  · rw [hdec]
    unfold packSimhashToBytes
    rw [List.length_reverse, fillBytes_length]
  · rw [hdec]
    unfold packSimhashToBytes
    rw [List.reverse_reverse]
    apply bytesToNatBE_fillBytes
    have : 8 * (size / 8) = size := Nat.mul_div_cancel' (Nat.dvd_of_mod_eq_zero h8)
    rw [this]
    exact generateSimhash_lt hashFn features size

/-- Witness for C3 at width 8 and the empty feature set. -/
theorem GetSimhash_roundtrip_witness :
    8 % 8 = 0 ∧
      ((base64Decode (GetSimhash (fun s => s.length) [("t", 1)] 8).toList).length = 8 / 8 ∧
        bytesToNatBE ((base64Decode (GetSimhash (fun s => s.length) [("t", 1)] 8).toList).reverse) =
          generateSimhash (fun s => s.length) [("t", 1)] 8) :=
  ⟨by decide, GetSimhash_roundtrip (fun s => s.length) [("t", 1)] 8 (by decide)⟩

/-! ## Lemmas for the word-count equivalence -/

theorem sorted_head_not_mem {w x : String} {rest : List String}
    (hs : List.Sorted (fun a b => strLe a b = true) (w :: x :: rest)) (hne : x ≠ w) :
    w ∉ x :: rest := by
  intro hmem
  have hwx : strLe w x = true := List.rel_of_sorted_cons hs x (by simp)
  rcases List.mem_cons.mp hmem with h | h
  · exact hne h.symm
  · have hxw : strLe x w = true := List.rel_of_sorted_cons (List.Sorted.of_cons hs) w h
    exact hne (strLe_antisymm hxw hwx)

theorem runLengthAux_lookup :
    ∀ (l : List String) (w : String) (c : Nat),
      List.Sorted (fun a b => strLe a b = true) (w :: l) → ∀ (v : String),
      (runLengthAux w c l).lookup v =
        if v = w then some (c + l.count w)
        else if l.count v = 0 then none else some (l.count v)
  | [], w, c, _, v => by
      by_cases hv : v = w
      · simp [runLengthAux, List.lookup, hv]
      · simp [runLengthAux, List.lookup, hv, beq_eq_false_iff_ne.mpr hv]
  | x :: rest, w, c, hs, v => by
      by_cases hxw : x = w
      · subst hxw
        rw [show runLengthAux x c (x :: rest) = runLengthAux x (c + 1) rest from by
          simp [runLengthAux]]
        rw [runLengthAux_lookup rest x (c + 1) (List.Sorted.of_cons hs) v]
        by_cases hv : v = x
        · subst hv
          simp only [if_pos rfl, List.count_cons_self]
          exact congrArg some (by omega)
        · simp [hv, List.count_cons_of_ne hv]
      · rw [show runLengthAux w c (x :: rest) = (w, c) :: runLengthAux x 1 rest from by
          simp [runLengthAux, hxw]]
        have hsx : List.Sorted (fun a b => strLe a b = true) (x :: rest) :=
          List.Sorted.of_cons hs
        have hcw : (x :: rest).count w = 0 :=
          List.count_eq_zero.mpr (sorted_head_not_mem hs hxw)
        by_cases hv : v = w
        · subst hv
          simp [List.lookup, hcw]
        · rw [show ((w, c) :: runLengthAux x 1 rest).lookup v =
              (runLengthAux x 1 rest).lookup v from by
            simp [List.lookup, beq_eq_false_iff_ne.mpr hv]]
          rw [runLengthAux_lookup rest x 1 hsx v, if_neg hv]
          by_cases hvx : v = x
          · subst hvx
            rw [if_pos rfl, List.count_cons_self, if_neg (by omega)]
            exact congrArg some (by omega)
          · rw [if_neg hvx, List.count_cons_of_ne hvx]

theorem runLengthCounts_lookup (l : List String)
    (hs : List.Sorted (fun a b => strLe a b = true) l) (v : String) :
    (runLengthCounts l).lookup v = if l.count v = 0 then none else some (l.count v) := by
  cases l with
  | nil => simp [runLengthCounts]
  | cons w rest =>
      rw [show runLengthCounts (w :: rest) = runLengthAux w 1 rest from rfl,
        runLengthAux_lookup rest w 1 hs v]
      by_cases hv : v = w
      · subst hv
        rw [if_pos rfl, List.count_cons_self, if_neg (by omega)]
        exact congrArg some (by omega)
      · rw [if_neg hv, List.count_cons_of_ne hv]

theorem directCountFoldl : ∀ (words : List String) (m : String → Nat) (x : String),
    (words.foldl (fun m w => fun y => if y = w then m y + 1 else m y) m) x
      = m x + words.count x
  | [], m, x => by simp
  | w :: ws, m, x => by
      rw [List.foldl_cons, directCountFoldl ws _ x]
      by_cases hx : x = w
      · subst hx
        rw [if_pos rfl, List.count_cons_self]
        omega
      · rw [if_neg hx, List.count_cons_of_ne hx]

theorem directCountFun_eq_count (words : List String) (x : String) :
    directCountFun words x = words.count x := by
  unfold directCountFun
  rw [directCountFoldl]
  simp

/-- C4: for every token list, the weight map built by sorting and run-length
counting adjacent equal tokens agrees, token by token, with the map built by
a direct frequency-counting pass: both are defined exactly on the tokens that
occur (count nonzero) and assign each the same count. -/
theorem extractWordCounts_eq_directCount (words : List String) (w : String) :
    (extractWordCounts words).lookup w =
      if directCountFun words w = 0 then none else some (directCountFun words w) := by
  have hsorted : List.Sorted (fun a b => strLe a b = true) (sortStrings words) :=
    List.sorted_insertionSort _ words
  have hcount : (sortStrings words).count w = words.count w :=
    (List.perm_insertionSort _ words).count_eq w
  unfold extractWordCounts
  rw [runLengthCounts_lookup _ hsorted w, hcount, directCountFun_eq_count]

/-! ## Lemmas for pagination -/

theorem goIntCeilDiv_le_mul {a n : Int} (hn : 0 < n) : a ≤ goIntCeilDiv a n * n := by
  unfold goIntCeilDiv
  rw [if_pos hn]
  have h1 := Int.ediv_mul_le (-a) (ne_of_gt hn)
  linarith

theorem goIntCeilDiv_nonneg {a n : Int} (hn : 0 < n) (ha : 0 ≤ a) :
    0 ≤ goIntCeilDiv a n := by
  by_contra hneg
  have hT : goIntCeilDiv a n < 0 := not_le.mp hneg
  have := goIntCeilDiv_le_mul hn (a := a)
  nlinarith

/-- C5: pagination of `handleResults`. For `perPage > 0` and a 1-based page
within the available pages, the result is the `page`-th group of up to
`perPage` entries; a page beyond the last available page returns the same
slice as the last page; `perPage <= 0` returns all results unpaged (the
computed `totalPages` is not positive, so no slicing happens); and the `-1`
page sentinel returns all results unpaged. -/
theorem handleResults_pagination (ts : List String) (n p : Int) :
    (1 ≤ p → 0 < n → p ≤ goIntCeilDiv ts.length n →
      handleResultsSlice ts n p = (ts.drop ((p - 1) * n).toNat).take n.toNat) ∧
    (0 < n → goIntCeilDiv ts.length n < p →
      handleResultsSlice ts n p = handleResultsSlice ts n (goIntCeilDiv ts.length n)) ∧
    (n ≤ 0 → handleResultsSlice ts n p = ts) ∧
    (p = -1 → handleResultsSlice ts n p = ts) := by
  refine ⟨?_, ?_, ?_, ?_⟩
  · intro hp hn hpT
    have hTpos : 0 < goIntCeilDiv (ts.length : Int) n := lt_of_lt_of_le (by omega) hpT
    unfold handleResultsSlice
    rw [if_neg (show ¬ p = -1 by omega), if_pos hTpos, min_eq_left hpT,
      List.drop_take]
    apply List.take_eq_take.mpr
    rw [List.length_drop]
    have hmul : p * n = (p - 1) * n + n := by ring
    have hs0 : 0 ≤ (p - 1) * n := mul_nonneg (by omega) (by omega)
    omega
  · intro hn hTp
    by_cases hT : 0 < goIntCeilDiv (ts.length : Int) n
    · unfold handleResultsSlice
      rw [if_neg (show ¬ p = -1 by omega), if_pos hT,
        if_neg (show ¬ goIntCeilDiv (ts.length : Int) n = -1 by omega), if_pos hT,
        min_eq_right (le_of_lt hTp), min_self]
    · have hT0 : 0 ≤ goIntCeilDiv (ts.length : Int) n :=
        goIntCeilDiv_nonneg hn (by positivity)
      have hTz : goIntCeilDiv (ts.length : Int) n = 0 := by omega
      unfold handleResultsSlice
      rw [if_neg (show ¬ p = -1 by omega), if_neg hT, hTz,
        if_neg (show ¬ (0 : Int) = -1 by omega)]
      rw [show goIntCeilDiv (ts.length : Int) n = 0 from hTz] at hT
      rw [if_neg hT]
  · intro hn0
    by_cases hp1 : p = -1
    · unfold handleResultsSlice
      rw [if_pos hp1]
    · have hTle : goIntCeilDiv (ts.length : Int) n ≤ 0 := by
        unfold goIntCeilDiv
        rw [if_neg (not_lt.mpr hn0)]
        exact Int.ediv_nonpos (by positivity) hn0
      unfold handleResultsSlice
      rw [if_neg hp1, if_neg (not_lt.mpr hTle)]
  · intro hp1
    unfold handleResultsSlice
    rw [if_pos hp1]

/-- Witness for C5: 25 sorted results with `perPage = 10`: page 3 returns
items 21 through 25, page 99 returns the same slice as the last page, and
`perPage = -1` returns everything. -/
theorem handleResults_pagination_witness :
    (handleResultsSlice ((List.range 25).map (fun i => toString i)) 10 3 =
      ((((List.range 25).map (fun i => toString i)).drop
        (((3 : Int) - 1) * 10).toNat).take (10 : Int).toNat)) ∧
    (handleResultsSlice ((List.range 25).map (fun i => toString i)) 10 99 =
      handleResultsSlice ((List.range 25).map (fun i => toString i)) 10
        (goIntCeilDiv (((List.range 25).map (fun i => toString i)).length : Int) 10)) ∧
    (handleResultsSlice ((List.range 25).map (fun i => toString i)) (-1) 5 =
      (List.range 25).map (fun i => toString i)) :=
  ⟨(handleResults_pagination ((List.range 25).map (fun i => toString i)) 10 3).1
      (by decide) (by decide) (by decide),
    (handleResults_pagination ((List.range 25).map (fun i => toString i)) 10 99).2.1
      (by decide) (by decide),
    (handleResults_pagination ((List.range 25).map (fun i => toString i)) (-1) 5).2.2.1
      (by decide)⟩

/-- C6: demonstration against the claim. The store holds the year-prefix field
`"2023"` for the URL's key but not the exact timestamp, so the claim expects
the `NoCaptures` failure; the code instead returns the generic loading error,
because go-redis `HGet` reports a missing field as the error `redis.Nil` and
the error branch fires before the year-prefix fallback can run (the fallback
is reachable only when the stored value is the empty string). -/
theorem timestampSimHash_missing_field_generic_error :
    TimestampSimHash [("com,example", [("2023", "somehash")])] "example.com"
        "20230101000000" =
      Except.error
        "error loading simhash data for url example.com timestamp 20230101000000 (redis: nil)" :=
  rfl

/-- Counterexample for C7: with a transport-level failure on every attempt,
`DownloadCapture` issues exactly 2 HTTP requests, not the 3 the claim
predicts (`for i := 0; i < MAX_RETRIES; i++` with `MAX_RETRIES = 2` bounds
the total attempts, not the additional retries). -/
theorem downloadCapture_not_three_attempts :
    (downloadAttempts (fun _ => (none : Option Unit))).1 = 2 ∧
      ¬ (downloadAttempts (fun _ => (none : Option Unit))).1 = 3 := by decide

theorem downloadAttempts_eval {α : Type} (outcome : Nat → Option α) :
    downloadAttempts outcome =
      match outcome 0, outcome 1 with
      | some r, _ => (1, some r)
      | none, some r => (2, some r)
      | none, none => (2, none) := by
  have ea : downloadAttempts outcome =
      (match outcome 0 with
        | some x => (1, some x)
        | none => downloadAttemptLoop outcome 1 1) := rfl
  have eb : downloadAttemptLoop outcome 1 1 =
      (match outcome 1 with
        | some x => (2, some x)
        | none => downloadAttemptLoop outcome 2 0) := rfl
  rw [ea, eb]
  rcases outcome 0 with _ | r <;> rcases outcome 1 with _ | r' <;> rfl

/-- C7 (amended): `DownloadCapture` retries a failed transport-level request
up to 1 additional attempt beyond the first (at most `MAX_RETRIES = 2` HTTP
requests in total) with backoff-plus-jitter sleeps before each attempt, and
never retries once any HTTP response is received, regardless of its status
code: a response at the first attempt ends the loop after 1 request, a
response at the second ends it after 2, and two transport failures exhaust
the loop at 2 attempts with no response. -/
theorem downloadCapture_retry_bound {α : Type} (outcome : Nat → Option α) :
    (downloadAttempts outcome).1 ≤ 2 ∧
    (∀ r, outcome 0 = some r → downloadAttempts outcome = (1, some r)) ∧
    (∀ r, outcome 0 = none → outcome 1 = some r → downloadAttempts outcome = (2, some r)) ∧
    (outcome 0 = none → outcome 1 = none → downloadAttempts outcome = (2, none)) := by
  refine ⟨?_, ?_, ?_, ?_⟩
  · rw [downloadAttempts_eval outcome]
    rcases outcome 0 with _ | r
    · rcases outcome 1 with _ | r' <;> simp
    · simp
  · intro r h0
    rw [downloadAttempts_eval outcome, h0]
  · intro r h0 h1
    rw [downloadAttempts_eval outcome, h0, h1]
  · intro h0 h1
    rw [downloadAttempts_eval outcome, h0, h1]

/-- Witness for C7 on the all-fail and first-response outcome sequences. -/
theorem downloadCapture_retry_bound_witness :
    downloadAttempts (fun _ => (none : Option Nat)) = (2, none) ∧
      downloadAttempts (fun _ => (some 7 : Option Nat)) = (1, some 7) :=
  ⟨(downloadCapture_retry_bound (fun _ => (none : Option Nat))).2.2.2 rfl rfl,
    (downloadCapture_retry_bound (fun _ => (some 7 : Option Nat))).2.1 7 rfl⟩

theorem downloadCaptureBody_gzip_text (gunzip inflate : List Nat → Option (List Nat))
    (ce ct : String) (body : List Nat) (hce : strContains ce "gzip" = true)
    (hct : strContains (toLowerStr ct) "text" = true) :
    downloadCaptureBody gunzip inflate ce ct body =
      match gunzip body with
      | none => []
      | some data => data := by
  unfold downloadCaptureBody
  rw [if_pos hce]
  rcases gunzip body with _ | data
  · rfl
  · simp [hct]

theorem downloadCaptureBody_plain_text (gunzip inflate : List Nat → Option (List Nat))
    (ce ct : String) (body : List Nat) (h1 : strContains ce "gzip" = false)
    (h2 : strContains ce "deflate" = false)
    (hct : strContains (toLowerStr ct) "text" = true) :
    downloadCaptureBody gunzip inflate ce ct body = body.take MAP_CAPTURE_DOWNLOAD := by
  unfold downloadCaptureBody
  rw [if_neg (by simp [h1]), if_neg (by simp [h2])]
  simp [hct]

/-- C8: demonstration against the claim. For a gzip-encoded text response
whose body has 1,000,001 bytes, the decoder output is derived from the whole
body — here 1,000,001 bytes long, beyond the 1,000,000-byte cap — because the
gzip (and deflate) readers are built over `resp.Body` directly instead of the
`io.LimitReader` installed just above; only the uncompressed path reads
through the cap, as the second conjunct shows. -/
theorem downloadCapture_gzip_bypasses_limit :
    (downloadCaptureBody some some "gzip" "text"
        (List.replicate 1000001 0)).length = 1000001 ∧
      (downloadCaptureBody some some "" "text"
        (List.replicate 1000001 0)).length = 1000000 := by
  constructor
  · rw [downloadCaptureBody_gzip_text some some "gzip" "text" (List.replicate 1000001 0)
      (by decide) (by decide)]
    show (List.replicate 1000001 (0 : Nat)).length = 1000001
    rw [List.length_replicate]
  · rw [downloadCaptureBody_plain_text some some "" "text" (List.replicate 1000001 0)
      (by decide) (by decide) (by decide)]
    rw [List.length_take, List.length_replicate]
    rfl

/-- Counterexample for C9: a failing `HSet` store write after a successful run
leaves the job COMPLETE but skips the `j.Duration = duration` assignment (the
error branch returns first), so the elapsed duration is not recorded, against
the claim's "Duration is recorded ... regardless of whether the persistence
write succeeds or fails". -/
theorem runJob_duration_skipped_on_store_error :
    (finishJob 1 [("t", "s")] (some "boom") none
        (JobRecord.mk "PENDING" "" false)).state = "COMPLETE" ∧
      (finishJob 1 [("t", "s")] (some "boom") none
        (JobRecord.mk "PENDING" "" false)).durationSet = false := by decide

/-- C9 (amended): whenever the capture listing succeeds and all per-capture
work finishes, the job state is set to COMPLETE regardless of the result map
and of the persistence outcome, and a store-write failure never changes the
already-COMPLETE state; the elapsed duration, however, is recorded exactly
when the result map is empty (nothing is written) or both the `HSet` and
`Expire` writes succeed — a store-write failure skips recording it. -/
theorem finishJob_complete_duration (totalCaptures : Nat)
    (finalResult : List (String × String)) (hsetErr expireErr : Option String)
    (j : JobRecord) :
    (finishJob totalCaptures finalResult hsetErr expireErr j).state = "COMPLETE" ∧
      (j.durationSet = false →
        ((finishJob totalCaptures finalResult hsetErr expireErr j).durationSet = true ↔
          (finalResult = [] ∨ (hsetErr = none ∧ expireErr = none)))) := by
  rcases finalResult with _ | ⟨hd, tl⟩ <;> rcases hsetErr with _ | e1 <;>
    rcases expireErr with _ | e2 <;> simp [finishJob]

/-- Witness for C9: empty result map, no store writes, fresh job record. -/
theorem finishJob_complete_duration_witness :
    (finishJob 0 [] none none (JobRecord.mk "PENDING" "x" false)).state = "COMPLETE" ∧
      (finishJob 0 [] none none (JobRecord.mk "PENDING" "x" false)).durationSet = true :=
  ⟨(finishJob_complete_duration 0 [] none none (JobRecord.mk "PENDING" "x" false)).1,
    ((finishJob_complete_duration 0 [] none none (JobRecord.mk "PENDING" "x" false)).2
      rfl).mpr (Or.inl rfl)⟩

theorem collectYearTimestamps_none {year : String} :
    ∀ (l : List String), year ∈ l → collectYearTimestamps year l = none
  | [], hmem => absurd hmem (List.not_mem_nil year)
  | ts :: rest, hmem => by
      unfold collectYearTimestamps
      by_cases h : ts = year
      · rw [if_pos h]
      · rw [if_neg h]
        rcases List.mem_cons.mp hmem with h2 | h2
        · exact absurd h2.symm h
        · rw [collectYearTimestamps_none rest h2]

/-- C10: if any stored field key equals the requested year string exactly, the
by-year query fails with `NO_CAPTURES`, even when other stored timestamp keys
start with that year and would otherwise be collected and returned. -/
theorem yearSimhash_exact_year_key (timestamps : List String) (year : String)
    (hmem : year ∈ timestamps) :
    yearSimhashScan timestamps year = Except.error "NO_CAPTURES" := by
  unfold yearSimhashScan
  rw [if_neg (show ¬ timestamps.length = 0 from fun h =>
    List.ne_nil_of_mem hmem (List.length_eq_zero.mp h))]
  have hmem2 : year ∈ sortStrings timestamps :=
    ((List.perm_insertionSort _ timestamps).mem_iff).mpr hmem
  rw [collectYearTimestamps_none _ hmem2]

/-- Witness for C10: the record holds the exact-year key `"2023"` alongside a
timestamp that starts with `"2023"` and would otherwise be returned. -/
theorem yearSimhash_exact_year_key_witness :
    yearSimhashScan ["20230101123456", "2023"] "2023" = Except.error "NO_CAPTURES" :=
  yearSimhash_exact_year_key ["20230101123456", "2023"] "2023" (by decide)

end WaybackDiff
